import Mathlib

/-!
# Verification of the easy-crypto module (src/index.js)

Shallow embedding of the module's operations:

* strings are `List Char`, byte buffers are `List Nat` (each element a byte);
* the Node `Buffer` UTF-8 codec (`Buffer.from(str)` / `buf.toString('utf8')`)
  is an external collaborator, modelled as an abstract codec together with its
  defining behaviour on ASCII data (every character below code point 128 is
  encoded as the single byte equal to its code point);
* the base64 rendering used for ciphertext strings is likewise an external
  pure utility, modelled as an abstract codec with its round-trip law on
  byte sequences;
* the raw RSA transform (`crypto.publicEncrypt` / `crypto.privateDecrypt`
  with `RSA_NO_PADDING`, keys read from files) and the AES cipher
  (`crypto.createCipheriv` / `createDecipheriv`) are external primitives,
  modelled as abstract functions; the theorems assume exactly the properties
  the spec delegates to them (a valid key pair round-trips a full-size block,
  a valid AES triple inverts itself);
* `Math.floor(Math.random() * 26)` is modelled by an arbitrary choice
  function `rand : Nat → Fin 26`, so every theorem quantifies over all
  sequences of random draws the generator may produce.
-/

/-- Abstract model of Node's Buffer UTF-8 codec (`Buffer.from(s)` and
`buf.toString('utf8')`): an external collaborator of the module. -/
structure Utf8Codec where
  encode : List Char → List Nat
  decode : List Nat → List Char

/-- The defining behaviour of the UTF-8 codec on ASCII data: characters with
code point below 128 encode to the single byte equal to their code point, and
byte sequences of values below 128 decode to the corresponding characters. -/
def Utf8Codec.AsciiLaws (u : Utf8Codec) : Prop :=
  (∀ s : List Char, (∀ c ∈ s, c.toNat < 128) → u.encode s = s.map Char.toNat) ∧
  (∀ bs : List Nat, (∀ b ∈ bs, b < 128) → u.decode bs = bs.map Char.ofNat)

/-- Abstract model of the base64 (or hex, …) rendering used between raw
ciphertext bytes and the strings the module returns/accepts
(`buf.toString(outputEncoding)` and `Buffer.from(s, inputEncoding)`). -/
structure CiphertextCodec where
  encode : List Nat → List Char
  decode : List Char → List Nat

/-- The law the module relies on: decoding an encoded byte sequence (all
elements genuine bytes, i.e. below 256) gives the bytes back. -/
def CiphertextCodec.Roundtrip (b : CiphertextCodec) : Prop :=
  ∀ bs : List Nat, (∀ x ∈ bs, x < 256) → b.decode (b.encode bs) = bs

/-- Abstract model of the raw RSA transform pair (`crypto.publicEncrypt` /
`crypto.privateDecrypt` with `RSA_NO_PADDING`, key material read from the
key files): an external primitive of the module. -/
structure RSAPrim where
  enc : List Nat → List Nat
  dec : List Nat → List Nat

/-- The 26 lowercase ASCII letters, the alphabet of `getRandomString`
(source line 141: `const letters = 'abcdefghijklmnopqrstuvwxyz'`). -/
def lettersList : List Char := "abcdefghijklmnopqrstuvwxyz".toList

/-- `letters[Math.floor(Math.random() * 26)]`: the letter selected by one
random draw (the draw is always in `0..25`, hence `Fin 26`). -/
def letterAt (k : Fin 26) : Char := lettersList.getD k.val 'a'

/-- Embedding of `getRandomString(length)` (source lines 140-149): the string
built by `length` successive random letter draws, the `i`-th draw given by
`rand i`. -/
def getRandomString (rand : Nat → Fin 26) (length : Nat) : List Char :=
  (List.range length).map (fun i => letterAt (rand i))

/-- Embedding of `Buffer.alloc(size)` followed by `buffer.write(str)`
(source lines 129-132): a zero-filled buffer of `size` bytes whose prefix is
overwritten with the encoded bytes of `str`, truncated to the buffer size.
(Node truncates at character boundaries; all uses in this module write pure
ASCII, where truncation never occurs, so byte-level truncation is faithful.) -/
def bufferWrite (size : Nat) (bytes : List Nat) : List Nat :=
  bytes.take size ++ List.replicate (size - bytes.length) 0

/-- Embedding of `getRandomBytes(size)` (source lines 128-134) for a
non-negative `size`: allocate `size` bytes and write the random string's
UTF-8 bytes into them. -/
def getRandomBytesN (u : Utf8Codec) (rand : Nat → Fin 26) (size : Nat) :
    List Nat :=
  bufferWrite size (u.encode (getRandomString rand size))

/-- The error raised by `Buffer.alloc(size)` when `size` is negative
(Node raises `RangeError [ERR_OUT_OF_RANGE]`); the only synchronous failure
the embedded code paths can raise. -/
inductive JsError where
  | rangeErrorNegativeBufferSize
deriving DecidableEq

/-- Embedding of `getRandomBytes(size)` for an arbitrary (possibly negative)
integer `size`, as `rsaEncrypt` may call it: `Buffer.alloc` throws a
`RangeError` for negative sizes. -/
def getRandomBytesE (u : Utf8Codec) (rand : Nat → Fin 26) (size : Int) :
    Except JsError (List Nat) :=
  if size < 0 then .error .rangeErrorNegativeBufferSize
  else .ok (getRandomBytesN u rand size.toNat)

/-- The result record of `genAESKeyAndIv` (source lines 13-19). -/
structure AESKeyIv where
  key : List Nat
  iv : List Nat

/-- Embedding of `genAESKeyAndIv(keyLength = 256)` (source lines 13-19):
`key = getRandomBytes(keyLength/8)`, `iv = getRandomBytes(128/8)`.
`keyLength` is meant to be a multiple of 8 (JavaScript division is exact
there; the theorems carry that hypothesis). The two calls draw from
independent positions of the random stream, modelled by two draw functions. -/
def genAESKeyAndIv (u : Utf8Codec) (randKey randIv : Nat → Fin 26)
    (keyLength : Nat := 256) : AESKeyIv :=
  { key := getRandomBytesN u randKey (keyLength / 8)
    iv := getRandomBytesN u randIv (128 / 8) }

/-- The lowercase-letter bytes: UTF-8 encodings of the 26 letters. -/
def lettersBytes : List Nat := lettersList.map Char.toNat

-- JavaScript `String.prototype.split` on lists.

/-- Index of the first occurrence of `sep` as a contiguous block of `text`
(`String.prototype.indexOf` semantics: the empty separator occurs at 0). -/
def findSub [DecidableEq α] (sep : List α) : List α → Option Nat
  | [] => if sep = [] then some 0 else none
  | a :: rest =>
    if sep <+: (a :: rest) then some 0 else (findSub sep rest).map (· + 1)

/-- Worker for `jsSplit` with a non-empty separator: cut at each (leftmost,
non-overlapping) occurrence of `sep`. The `fuel` argument only bounds the
number of cuts — each cut consumes at least one element when `sep` is
non-empty, so `fuel = text.length` always suffices (the congruence theorem
below makes this precise). -/
def jsSplitNEAux [DecidableEq α] (sep : List α) : Nat → List α → List (List α)
  | 0, text => [text]
  | fuel + 1, text =>
    match findSub sep text with
    | none => [text]
    | some i => text.take i :: jsSplitNEAux sep fuel (text.drop (i + sep.length))

/-- JavaScript split for a non-empty separator. -/
def jsSplitNE [DecidableEq α] (sep text : List α) : List (List α) :=
  jsSplitNEAux sep text.length text

/-- Embedding of JavaScript `String.prototype.split`: the empty separator
splits the string into its individual characters; a non-empty separator cuts
at every occurrence. -/
def jsSplit [DecidableEq α] (sep text : List α) : List (List α) :=
  if sep = [] then text.map (fun a => [a]) else jsSplitNE sep text

/-- The segment of `text` before the first occurrence of `sep`
(all of `text` when `sep` does not occur). -/
def takeUntil [DecidableEq α] (sep text : List α) : List α :=
  match findSub sep text with
  | none => text
  | some i => text.take i

-- The RSA padding protocol (source lines 73-121).

/-- Embedding of `rsaEncrypt(content, {splitBar, pubKeyPath, keyLength,
outputEncoding})` (source lines 73-94).

* `content` is the payload buffer, `splitBar` the delimiter string;
* `splitBarBuffer = Buffer.from(splitBar)` is `u.encode splitBar`;
* `restLength = keyLength/8 - splitBarBuffer.length - content.length`,
  computed in `Int` because JavaScript arithmetic goes negative here
  (the code has no size guard); `keyLength` is taken to be a multiple of 8,
  as in every documented use (JavaScript division is exact there);
* `getRandomBytes(restLength)` throws the `Buffer.alloc` `RangeError` when
  `restLength < 0`, else yields the filler;
* the padded buffer `Buffer.concat([filler, splitBarBuffer, content])` is
  passed to the raw RSA transform `prim.enc` (public key read from
  `pubKeyPath`), and the result is rendered by the output encoding `ct`. -/
def rsaEncryptM (u : Utf8Codec) (ct : CiphertextCodec) (prim : RSAPrim)
    (rand : Nat → Fin 26) (content : List Nat) (splitBar : List Char)
    (keyLength : Nat) : Except JsError (List Char) :=
  let splitBarBuffer := u.encode splitBar
  let restLength : Int :=
    ((keyLength / 8 : Nat) : Int) - splitBarBuffer.length - content.length
  match getRandomBytesE u rand restLength with
  | .error e => .error e
  | .ok filler =>
    .ok (ct.encode (prim.enc (filler ++ splitBarBuffer ++ content)))

/-- Embedding of the payload-recovery step of `rsaDecrypt` (source line 118):
`decryptedData.split(splitBar)[1]`. Index 1 of a JavaScript split is
`undefined` when the array has fewer than two entries, modelled by `none`. -/
def rsaDecryptRecover (decryptedData splitBar : List Char) :
    Option (List Char) :=
  (jsSplit splitBar decryptedData)[1]?

/-- Embedding of `rsaDecrypt(content, {splitBar, priKeyPath, outputEncoding,
inputEncoding})` (source lines 104-121): decode the ciphertext string from
its input encoding, apply the raw RSA private transform (key read from
`priKeyPath`), render the recovered block as text, split on the delimiter
and take index 1. -/
def rsaDecryptM (u : Utf8Codec) (ct : CiphertextCodec) (prim : RSAPrim)
    (content : List Char) (splitBar : List Char) : Option (List Char) :=
  rsaDecryptRecover (u.decode (prim.dec (ct.decode content))) splitBar

-- The AES cipher facade (source lines 30-63).

/-- Abstract model of one `crypto.createCipheriv`/`createDecipheriv`
instantiation for a given `{algorithm, key, iv}` triple: the byte output of
the streaming `update` call and of the `final` call, on each side. -/
structure AESPrim where
  encUpdate : List Nat → List Nat
  encFinal : List Nat → List Nat
  decUpdate : List Nat → List Nat
  decFinal : List Nat → List Nat

/-- The property the spec delegates to the cipher primitive: for a valid
`{algorithm, key, iv}` triple, decrypting (update plus final output) what
encryption produced (update plus final output) restores the plaintext. -/
def AESPrim.Inverts (p : AESPrim) : Prop :=
  ∀ bs : List Nat,
    p.decUpdate (p.encUpdate bs ++ p.encFinal bs) ++
      p.decFinal (p.encUpdate bs ++ p.encFinal bs) = bs

/-- Embedding of `aesEncrypt(content, {...})` (source lines 30-41):
`inDec` interprets `content` per the input encoding, the cipher is fed the
whole content, and `update`'s output concatenated with `final`'s output is
rendered by `ctEnc` (the output encoding; Node's internal string decoder
makes the concatenation of the two rendered chunks equal the rendering of
the concatenated bytes). -/
def aesEncryptM {σ τ : Type} (inDec : σ → List Nat) (ctEnc : List Nat → τ)
    (prim : AESPrim) (content : σ) : τ :=
  ctEnc (prim.encUpdate (inDec content) ++ prim.encFinal (inDec content))

/-- Embedding of `aesDecrypt(content, {...})` (source lines 52-63): decode
the ciphertext per the input encoding, run the decipher's `update` and
`final`, and render their concatenated output per the output encoding. -/
def aesDecryptM {σ τ : Type} (ctDec : τ → List Nat) (outEnc : List Nat → σ)
    (prim : AESPrim) (content : τ) : σ :=
  outEnc (prim.decUpdate (ctDec content) ++ prim.decFinal (ctDec content))

-- Concrete collaborator instances (used to instantiate the abstract
-- collaborators in closed statements).

/-- A reference codec agreeing with UTF-8 on ASCII data (it maps every
character to its code point and back). -/
def asciiRefCodec : Utf8Codec :=
  { encode := fun s => s.map Char.toNat
    decode := fun bs => bs.map Char.ofNat }

/-- A reference ciphertext rendering satisfying the byte round-trip law
(code-point rendering; stands in for base64 in closed statements). -/
def byteRefCodec : CiphertextCodec :=
  { encode := fun bs => bs.map Char.ofNat
    decode := fun s => s.map Char.toNat }

/-- The identity raw RSA transform: a stand-in key pair for closed
statements (it round-trips every block). -/
def idRSAPrim : RSAPrim := { enc := id, dec := id }

/-- The identity cipher: a stand-in valid AES triple for closed statements. -/
def idAESPrim : AESPrim :=
  { encUpdate := id
    encFinal := fun _ => []
    decUpdate := id
    decFinal := fun _ => [] }

/-- A fixed random stream (always draws letter 0, i.e. `'a'`). -/
def constRand : Nat → Fin 26 := fun _ => ⟨0, by omega⟩

-- Facts about the reference collaborator instances.

theorem char_toNat_ofNat_of_lt {b : Nat} (h : b < 256) :
    (Char.ofNat b).toNat = b := by
  have hv : b.isValidChar := Or.inl (by omega)
  rw [Char.ofNat, dif_pos hv]
  rfl

theorem asciiRefCodec_laws : asciiRefCodec.AsciiLaws :=
  ⟨fun _ _ => rfl, fun _ _ => rfl⟩

theorem byteRefCodec_roundtrip : byteRefCodec.Roundtrip := by
  intro bs hbs
  simp only [byteRefCodec, List.map_map]
  have : ∀ b ∈ bs, (Char.toNat ∘ Char.ofNat) b = id b := fun b hb =>
    char_toNat_ofNat_of_lt (hbs b hb)
  rw [List.map_congr_left this, List.map_id]

theorem idAESPrim_inverts : idAESPrim.Inverts := by
  intro bs
  simp [idAESPrim]

-- Basic facts about the random source.

theorem lettersList_length : lettersList.length = 26 := by decide

theorem letterAt_mem (k : Fin 26) : letterAt k ∈ lettersList := by
  have hk : k.val < lettersList.length := by
    rw [lettersList_length]; exact k.isLt
  rw [letterAt, lettersList.getD_eq_getElem 'a' hk]
  exact lettersList.getElem_mem hk

theorem getRandomString_length (rand : Nat → Fin 26) (n : Nat) :
    (getRandomString rand n).length = n := by
  simp [getRandomString]

theorem getRandomString_mem (rand : Nat → Fin 26) (n : Nat) :
    ∀ c ∈ getRandomString rand n, c ∈ lettersList := by
  intro c hc
  simp only [getRandomString, List.mem_map] at hc
  obtain ⟨i, _, rfl⟩ := hc
  exact letterAt_mem (rand i)

theorem lettersList_ascii : ∀ c ∈ lettersList, c.toNat < 128 := by decide

theorem lettersBytes_lt : ∀ b ∈ lettersBytes, b < 128 := by decide

theorem bufferWrite_length (size : Nat) (bytes : List Nat) :
    (bufferWrite size bytes).length = size := by
  simp [bufferWrite]
  omega

/-- The exact-length guarantee of `getRandomBytes` holds whatever the codec
does: the pre-allocated buffer fixes the length (the stated purpose of the
component, source line 124). -/
theorem getRandomBytesN_length (u : Utf8Codec) (rand : Nat → Fin 26)
    (size : Nat) : (getRandomBytesN u rand size).length = size :=
  bufferWrite_length _ _

/-- Under the codec's ASCII behaviour, `getRandomBytes(size)` is exactly the
byte rendering of the random string. -/
theorem getRandomBytesN_eq (u : Utf8Codec) (hu : u.AsciiLaws)
    (rand : Nat → Fin 26) (size : Nat) :
    getRandomBytesN u rand size = (getRandomString rand size).map Char.toNat := by
  have henc : u.encode (getRandomString rand size)
      = (getRandomString rand size).map Char.toNat :=
    hu.1 _ (fun c hc => lettersList_ascii c (getRandomString_mem rand size c hc))
  rw [getRandomBytesN, henc, bufferWrite]
  rw [List.length_map, getRandomString_length]
  have hlen : ((getRandomString rand size).map Char.toNat).length = size := by
    rw [List.length_map, getRandomString_length]
  rw [Nat.sub_self, List.replicate_zero, List.append_nil]
  exact List.take_of_length_le (Nat.le_of_eq hlen)

theorem getRandomBytesN_mem (u : Utf8Codec) (hu : u.AsciiLaws)
    (rand : Nat → Fin 26) (size : Nat) :
    ∀ b ∈ getRandomBytesN u rand size, b ∈ lettersBytes := by
  intro b hb
  rw [getRandomBytesN_eq u hu rand size] at hb
  simp only [List.mem_map] at hb
  obtain ⟨c, hc, rfl⟩ := hb
  exact List.mem_map_of_mem Char.toNat (getRandomString_mem rand size c hc)

-- Facts about `findSub` (first occurrence of a block).

theorem findSub_some_occurrence [DecidableEq α] {sep text : List α} {i : Nat}
    (h : findSub sep text = some i) : sep <+: text.drop i := by
  induction text generalizing i with
  | nil =>
    rw [findSub] at h
    by_cases hs : sep = ([] : List α)
    · rw [if_pos hs] at h
      cases h
      simp [hs]
    · rw [if_neg hs] at h
      cases h
  | cons a rest ih =>
    rw [findSub] at h
    by_cases hp : sep <+: (a :: rest)
    · rw [if_pos hp] at h
      cases h
      simpa using hp
    · rw [if_neg hp] at h
      simp only [Option.map_eq_some'] at h
      obtain ⟨i', hi', rfl⟩ := h
      simpa using ih hi'

/-- `findSub` really finds the first occurrence: if `sep` occurs at `m` and
nowhere earlier, `findSub` answers `m`. -/
theorem findSub_eq_some_of_first [DecidableEq α] {sep text : List α} {m : Nat}
    (hm : sep <+: text.drop m) (hmin : ∀ p, p < m → ¬ sep <+: text.drop p) :
    findSub sep text = some m := by
  induction text generalizing m with
  | nil =>
    have hs : sep = ([] : List α) := by
      simpa using hm
    have hm0 : m = 0 := by
      by_contra hne
      exact hmin 0 (Nat.pos_of_ne_zero hne) (by simp [hs])
    rw [findSub, if_pos hs, hm0]
  | cons a rest ih =>
    by_cases hp : sep <+: (a :: rest)
    · have hm0 : m = 0 := by
        by_contra hne
        exact hmin 0 (Nat.pos_of_ne_zero hne) (by simpa using hp)
      rw [findSub, if_pos hp, hm0]
    · have hmne : m ≠ 0 := by
        intro h0
        rw [h0] at hm
        exact hp (by simpa using hm)
      obtain ⟨m', rfl⟩ := Nat.exists_eq_succ_of_ne_zero hmne
      have hm' : sep <+: rest.drop m' := by simpa using hm
      have hmin' : ∀ p, p < m' → ¬ sep <+: rest.drop p := by
        intro p hpm hpre
        exact hmin (p + 1) (by omega) (by simpa using hpre)
      rw [findSub, if_neg hp, ih hm' hmin']
      rfl

/-- A prefix of a dropped tail matches the original list element by element. -/
theorem prefix_drop_getElem [DecidableEq α] {sep text : List α} {p : Nat}
    (h : sep <+: text.drop p) (i : Nat) (hi : i < sep.length) :
    text[p + i]? = sep[i]? := by
  obtain ⟨t, ht⟩ := h
  rw [← List.getElem?_drop, ← ht, List.getElem?_append_left hi]

/-- Any list with an element failing `Q` has a first such element. -/
theorem exists_first_not (Q : α → Prop) (l : List α) (h : ∃ a ∈ l, ¬ Q a) :
    ∃ j, ∃ hj : j < l.length, ¬ Q (l.get ⟨j, hj⟩) ∧
      ∀ i, ∀ hi : i < j, Q (l.get ⟨i, Nat.lt_trans hi hj⟩) := by
  induction l with
  | nil => simp at h
  | cons a t ih =>
    by_cases ha : Q a
    · have ht : ∃ x ∈ t, ¬ Q x := by
        obtain ⟨x, hx, hQx⟩ := h
        rcases List.mem_cons.mp hx with rfl | hxt
        · exact absurd ha hQx
        · exact ⟨x, hxt, hQx⟩
      obtain ⟨j, hj, hQj, hmin⟩ := ih ht
      refine ⟨j + 1, by simpa using Nat.succ_lt_succ hj, by simpa using hQj, ?_⟩
      intro i hi
      match i with
      | 0 => simpa using ha
      | i' + 1 =>
        have hi' : i' < j := Nat.lt_of_succ_lt_succ hi
        simpa using hmin i' hi'
    · exact ⟨0, by simp, by simpa using ha, fun i hi => absurd hi (Nat.not_lt_zero i)⟩

/-- The straddle-free first-occurrence lemma: if every element of `f`
satisfies `Q` and `sep` has a first element failing `Q`, then the first
occurrence of `sep` in `f ++ sep ++ r` is exactly the inserted one, at
index `f.length`: no occurrence can lie inside `f` or straddle the
boundary between `f` and `sep`. -/
theorem findSub_append_first [DecidableEq α] (Q : α → Prop) {sep f r : List α}
    (hf : ∀ a ∈ f, Q a)
    (j : Nat) (hj : j < sep.length) (hQj : ¬ Q (sep.get ⟨j, hj⟩))
    (hjmin : ∀ i, ∀ hi : i < j, Q (sep.get ⟨i, Nat.lt_trans hi hj⟩)) :
    findSub sep (f ++ (sep ++ r)) = some f.length := by
  apply findSub_eq_some_of_first
  · rw [List.drop_left]
    exact List.prefix_append sep r
  · intro p hp hpre
    have hget : (f ++ (sep ++ r))[p + j]? = sep[j]? :=
      prefix_drop_getElem hpre j hj
    rcases Nat.lt_or_ge (p + j) f.length with hlt | hge
    · -- the mismatching element would land inside the all-`Q` filler
      have h1 : (f ++ (sep ++ r))[p + j]? = f[p + j]? :=
        List.getElem?_append_left hlt
      have h2 : f[p + j]? = some (f.get ⟨p + j, hlt⟩) := by
        simp [List.getElem?_eq_getElem hlt]
      have h3 : sep[j]? = some (sep.get ⟨j, hj⟩) := by
        simp [List.getElem?_eq_getElem hj]
      have : f.get ⟨p + j, hlt⟩ = sep.get ⟨j, hj⟩ := by
        have := h1.symm.trans (hget.trans h3)
        rw [h2] at this
        exact Option.some.inj this.symm |>.symm
      exact hQj (this ▸ hf _ (f.get_mem _ hlt))
    · -- it would land inside `sep`, before its first non-`Q` element
      have hidx : p + j - f.length < j := by omega
      have hidxs : p + j - f.length < sep.length := Nat.lt_trans hidx hj
      have h1 : (f ++ (sep ++ r))[p + j]? = (sep ++ r)[p + j - f.length]? :=
        List.getElem?_append_right hge
      have h2 : (sep ++ r)[p + j - f.length]? = sep[p + j - f.length]? :=
        List.getElem?_append_left hidxs
      have h3 : sep[p + j - f.length]? = some (sep.get ⟨p + j - f.length, hidxs⟩) := by
        simp [List.getElem?_eq_getElem hidxs]
      have h4 : sep[j]? = some (sep.get ⟨j, hj⟩) := by
        simp [List.getElem?_eq_getElem hj]
      have heq : sep.get ⟨p + j - f.length, hidxs⟩ = sep.get ⟨j, hj⟩ := by
        have := (h1.symm.trans hget).trans h4
        rw [h2, h3] at this
        exact Option.some.inj this
      have hQ : Q (sep.get ⟨p + j - f.length, hidxs⟩) := hjmin _ hidx
      exact hQj (heq ▸ hQ)

theorem findSub_some_lt_length [DecidableEq α] {sep text : List α} {i : Nat}
    (hs : sep ≠ []) (h : findSub sep text = some i) :
    i + sep.length ≤ text.length ∧ 0 < text.length := by
  have hp := findSub_some_occurrence h
  have hle := hp.length_le
  rw [List.length_drop] at hle
  have hsl : 0 < sep.length := List.length_pos.mpr hs
  omega

theorem findSub_nil_none [DecidableEq α] {sep : List α} (hs : sep ≠ []) :
    findSub sep ([] : List α) = none := by
  rw [findSub, if_neg hs]

-- Facts about `jsSplit`.

/-- Fuel congruence: any fuel at least `text.length` computes the same
split, for a non-empty separator. -/
theorem jsSplitNEAux_congr [DecidableEq α] {sep : List α} (hs : sep ≠ [])
    (fuel₁ fuel₂ : Nat) (text : List α)
    (h₁ : text.length ≤ fuel₁) (h₂ : text.length ≤ fuel₂) :
    jsSplitNEAux sep fuel₁ text = jsSplitNEAux sep fuel₂ text := by
  induction fuel₁ generalizing fuel₂ text with
  | zero =>
    have htext : text = [] := List.eq_nil_of_length_eq_zero (Nat.le_zero.mp h₁)
    subst htext
    cases fuel₂ with
    | zero => rfl
    | succ f₂ => rw [jsSplitNEAux, jsSplitNEAux, findSub_nil_none hs]
  | succ f₁ ih =>
    cases hfs : findSub sep text with
    | none =>
      cases fuel₂ with
      | zero =>
        have htext : text = [] := List.eq_nil_of_length_eq_zero (Nat.le_zero.mp h₂)
        subst htext
        rw [jsSplitNEAux, jsSplitNEAux, findSub_nil_none hs]
      | succ f₂ => rw [jsSplitNEAux, jsSplitNEAux, hfs]
    | some i =>
      obtain ⟨hlen, hpos⟩ := findSub_some_lt_length hs hfs
      have hsl : 0 < sep.length := List.length_pos.mpr hs
      cases fuel₂ with
      | zero => omega
      | succ f₂ =>
        rw [jsSplitNEAux, jsSplitNEAux, hfs]
        simp only [List.cons.injEq, true_and]
        apply ih
        · rw [List.length_drop]; omega
        · rw [List.length_drop]; omega

theorem jsSplitNE_of_findSub_none [DecidableEq α] {sep text : List α}
    (hfs : findSub sep text = none) : jsSplitNE sep text = [text] := by
  cases text with
  | nil => rfl
  | cons a rest => rw [jsSplitNE, List.length_cons, jsSplitNEAux, hfs]

theorem jsSplitNE_of_findSub_some [DecidableEq α] {sep text : List α} {i : Nat}
    (hs : sep ≠ []) (hfs : findSub sep text = some i) :
    jsSplitNE sep text =
      text.take i :: jsSplitNE sep (text.drop (i + sep.length)) := by
  obtain ⟨hlen, hpos⟩ := findSub_some_lt_length hs hfs
  have hsl : 0 < sep.length := List.length_pos.mpr hs
  obtain ⟨n, hn⟩ : ∃ n, text.length = n + 1 := by
    refine ⟨text.length - 1, by omega⟩
  rw [jsSplitNE, hn, jsSplitNEAux, hfs, jsSplitNE]
  simp only [List.cons.injEq, true_and]
  apply jsSplitNEAux_congr hs
  · rw [List.length_drop]; omega
  · rw [List.length_drop]

theorem jsSplitNE_head [DecidableEq α] {sep : List α} (text : List α)
    (hs : sep ≠ []) : (jsSplitNE sep text)[0]? = some (takeUntil sep text) := by
  rcases hfs : findSub sep text with _ | i
  · rw [jsSplitNE_of_findSub_none hfs]
    simp [takeUntil, hfs]
  · rw [jsSplitNE_of_findSub_some hs hfs]
    simp [takeUntil, hfs]

/-- Index 1 of the JavaScript split, when the separator is non-empty and
occurs first at index `i`: the segment just after that occurrence, up to the
next occurrence if any. -/
theorem jsSplit_get1 [DecidableEq α] {sep text : List α} {i : Nat}
    (hs : sep ≠ []) (hfs : findSub sep text = some i) :
    (jsSplit sep text)[1]? = some (takeUntil sep (text.drop (i + sep.length))) := by
  rw [jsSplit, if_neg hs, jsSplitNE_of_findSub_some hs hfs]
  simpa using jsSplitNE_head (text.drop (i + sep.length)) hs

-- Claims.

/-- C6: for every non-negative integer `size` (and every random draw
sequence), `getRandomBytes(size)` returns exactly `size` bytes, each byte
the code of one of the 26 lowercase ASCII letters; for `size == 0` it
returns the empty sequence without raising. -/
theorem getRandomBytes_exact_length_letters (u : Utf8Codec)
    (hu : u.AsciiLaws) (rand : Nat → Fin 26) (size : Nat) :
    (getRandomBytesN u rand size).length = size ∧
    (∀ b ∈ getRandomBytesN u rand size, b ∈ lettersBytes) ∧
    getRandomBytesE u rand 0 = .ok [] := by
  refine ⟨getRandomBytesN_length u rand size, getRandomBytesN_mem u hu rand size, ?_⟩
  simp [getRandomBytesE, getRandomBytesN, bufferWrite]

theorem getRandomBytes_exact_length_letters_witness :
    asciiRefCodec.AsciiLaws ∧
    ((getRandomBytesN asciiRefCodec constRand 16).length = 16 ∧
      (∀ b ∈ getRandomBytesN asciiRefCodec constRand 16, b ∈ lettersBytes) ∧
      getRandomBytesE asciiRefCodec constRand 0 = .ok []) :=
  ⟨asciiRefCodec_laws,
    getRandomBytes_exact_length_letters asciiRefCodec asciiRefCodec_laws
      constRand 16⟩

/-- C7: for every `keyLength` that is a multiple of 8,
`genAESKeyAndIv(keyLength)` returns a key of exactly `keyLength / 8` bytes
and an iv of exactly 16 bytes. -/
theorem genAESKeyAndIv_lengths (u : Utf8Codec) (randKey randIv : Nat → Fin 26)
    (keyLength : Nat) (h8 : keyLength % 8 = 0) :
    (genAESKeyAndIv u randKey randIv keyLength).key.length = keyLength / 8 ∧
    (genAESKeyAndIv u randKey randIv keyLength).iv.length = 16 :=
  ⟨getRandomBytesN_length u randKey (keyLength / 8),
    getRandomBytesN_length u randIv (128 / 8)⟩

theorem genAESKeyAndIv_lengths_witness :
    (256 % 8 = 0 ∧
      (genAESKeyAndIv asciiRefCodec constRand constRand 256).key.length = 32 ∧
      (genAESKeyAndIv asciiRefCodec constRand constRand 256).iv.length = 16) ∧
    (128 % 8 = 0 ∧
      (genAESKeyAndIv asciiRefCodec constRand constRand 128).key.length = 16) :=
  ⟨⟨by decide,
      (genAESKeyAndIv_lengths asciiRefCodec constRand constRand 256 (by decide)).1,
      (genAESKeyAndIv_lengths asciiRefCodec constRand constRand 256 (by decide)).2⟩,
    by decide,
    (genAESKeyAndIv_lengths asciiRefCodec constRand constRand 128 (by decide)).1⟩

/-- C5: whenever the payload and delimiter fit (`rest_length >= 0`),
`rsaEncrypt` builds the padded buffer `filler ++ splitBar ++ content`, whose
total byte length is exactly the modulus byte length `keyLength / 8`, and
feeds exactly that buffer to the raw RSA transform. -/
theorem rsa_encrypt_padded_invariant (u : Utf8Codec) (ct : CiphertextCodec)
    (prim : RSAPrim) (rand : Nat → Fin 26) (content : List Nat)
    (splitBar : List Char) (keyLength : Nat) (h8 : keyLength % 8 = 0)
    (hfit : (u.encode splitBar).length + content.length ≤ keyLength / 8) :
    rsaEncryptM u ct prim rand content splitBar keyLength =
      .ok (ct.encode (prim.enc
        (getRandomBytesN u rand
            (keyLength / 8 - (u.encode splitBar).length - content.length) ++
          u.encode splitBar ++ content))) ∧
    (getRandomBytesN u rand
        (keyLength / 8 - (u.encode splitBar).length - content.length) ++
      u.encode splitBar ++ content).length = keyLength / 8 := by
  constructor
  · have hnn : ¬ (((keyLength / 8 : Nat) : Int) -
        ((u.encode splitBar).length : Int) - (content.length : Int) < 0) := by
      push_cast
      omega
    have htn : (((keyLength / 8 : Nat) : Int) -
        ((u.encode splitBar).length : Int) - (content.length : Int)).toNat =
        keyLength / 8 - (u.encode splitBar).length - content.length := by
      omega
    simp only [rsaEncryptM, getRandomBytesE, if_neg hnn, htn]
  · simp only [List.length_append, getRandomBytesN_length]
    omega

theorem rsa_encrypt_padded_invariant_witness :
    (32 % 8 = 0) ∧
    ((asciiRefCodec.encode ("|".toList)).length + ([104, 105] : List Nat).length ≤ 32 / 8) ∧
    (rsaEncryptM asciiRefCodec byteRefCodec idRSAPrim constRand [104, 105]
        ("|".toList) 32 =
      .ok (byteRefCodec.encode (idRSAPrim.enc
        (getRandomBytesN asciiRefCodec constRand
            (32 / 8 - (asciiRefCodec.encode ("|".toList)).length - ([104, 105] : List Nat).length) ++
          asciiRefCodec.encode ("|".toList) ++ [104, 105]))) ∧
    (getRandomBytesN asciiRefCodec constRand
        (32 / 8 - (asciiRefCodec.encode ("|".toList)).length - ([104, 105] : List Nat).length) ++
      asciiRefCodec.encode ("|".toList) ++ [104, 105]).length = 32 / 8) :=
  ⟨by decide, by decide,
    rsa_encrypt_padded_invariant asciiRefCodec byteRefCodec idRSAPrim
      constRand [104, 105] ("|".toList) 32 (by decide) (by decide)⟩

set_option maxRecDepth 8192 in
/-- C2 (divergence evaluation): with a 2048-bit key, delimiter `"||"` and a
256-byte payload, `restLength` is `-2`, and `rsaEncrypt` does NOT fail with
an explicit size-overflow error detected before the random buffer is built —
it reaches `getRandomBytes(-2)` and dies there with the `Buffer.alloc`
`RangeError` for a negative-length buffer. -/
theorem rsa_encrypt_overflow_reaches_negative_alloc :
    (((2048 / 8 : Nat) : Int) -
        ((asciiRefCodec.encode ("||".toList)).length : Int) -
        ((List.replicate 256 104).length : Int) = -2) ∧
    getRandomBytesE asciiRefCodec constRand (-2) =
      .error .rangeErrorNegativeBufferSize ∧
    rsaEncryptM asciiRefCodec byteRefCodec idRSAPrim constRand
        (List.replicate 256 104) ("||".toList) 2048 =
      .error .rangeErrorNegativeBufferSize := by
  refine ⟨by decide, rfl, ?_⟩
  have hneg : (((2048 / 8 : Nat) : Int) -
      ((asciiRefCodec.encode ("||".toList)).length : Int) -
      ((List.replicate 256 104).length : Int)) < 0 := by decide
  simp only [rsaEncryptM, getRandomBytesE, if_pos hneg]

/-- C3 (divergence evaluation): when the delimiter does not occur in the
decrypted text (here: plaintext `"hello"`, delimiter `"||"`),
`rsaDecrypt` returns JavaScript `undefined` (split index 1 of a one-element
array, modelled `none`) instead of raising an explicit decode error. -/
theorem rsa_decrypt_missing_delimiter_returns_undefined :
    findSub ("||".toList) ("hello".toList) = none ∧
    rsaDecryptRecover ("hello".toList) ("||".toList) = none :=
  ⟨by decide, by decide⟩

/-- C4: whenever the delimiter occurs in the decrypted text (first
occurrence at index `i`), `rsaDecrypt` returns split index 1: the segment
immediately following that first occurrence, ending at the next occurrence
if there is one — not the full remainder. -/
theorem rsa_decrypt_returns_first_split_segment (text splitBar : List Char)
    (i : Nat) (hs : splitBar ≠ []) (hfs : findSub splitBar text = some i) :
    rsaDecryptRecover text splitBar =
      some (takeUntil splitBar (text.drop (i + splitBar.length))) :=
  jsSplit_get1 hs hfs

theorem rsa_decrypt_returns_first_split_segment_witness :
    ("||".toList ≠ ([] : List Char)) ∧
    findSub ("||".toList) ("ab||cd||ef".toList) = some 2 ∧
    rsaDecryptRecover ("ab||cd||ef".toList) ("||".toList) =
      some ("cd".toList) := by
  refine ⟨by decide, by decide, ?_⟩
  rw [rsa_decrypt_returns_first_split_segment ("ab||cd||ef".toList)
    ("||".toList) 2 (by decide) (by decide)]
  decide

/-- C10: with an empty delimiter and a decrypted text of length at least 2,
`rsaDecrypt` returns exactly the second character: splitting on the empty
string cuts the text into single characters and index 1 is taken. -/
theorem rsa_decrypt_empty_delimiter_returns_second_char (text : List Char)
    (h : 1 < text.length) :
    rsaDecryptRecover text [] = some [text.get ⟨1, h⟩] := by
  rw [rsaDecryptRecover, jsSplit, if_pos rfl, List.getElem?_map]
  simp [List.getElem?_eq_getElem h]

theorem rsa_decrypt_empty_delimiter_returns_second_char_witness :
    (1 < ("ab".toList).length) ∧
    rsaDecryptRecover ("ab".toList) [] = some ['b'] := by
  refine ⟨by decide, ?_⟩
  rw [rsa_decrypt_empty_delimiter_returns_second_char ("ab".toList) (by decide)]
  decide

/-- C8: for every valid AES `{key, iv, algorithm}` triple (one whose cipher
primitive inverts itself — the property the spec delegates to the underlying
primitive) and matching encodings on both sides, decrypting the encryption
of any payload returns the payload. -/
theorem aes_roundtrip {σ τ : Type} (inDec : σ → List Nat)
    (ctEnc : List Nat → τ) (ctDec : τ → List Nat) (outEnc : List Nat → σ)
    (prim : AESPrim) (hprim : prim.Inverts)
    (hct : ∀ bs : List Nat, ctDec (ctEnc bs) = bs)
    (hmatch : ∀ x : σ, outEnc (inDec x) = x) (x : σ) :
    aesDecryptM ctDec outEnc prim (aesEncryptM inDec ctEnc prim x) = x := by
  rw [aesEncryptM, aesDecryptM, hct, hprim, hmatch]

theorem aes_roundtrip_witness :
    idAESPrim.Inverts ∧
    aesDecryptM id id idAESPrim
        (aesEncryptM id id idAESPrim ([0, 255, 7] : List Nat)) = [0, 255, 7] :=
  ⟨idAESPrim_inverts,
    aes_roundtrip id id id id idAESPrim idAESPrim_inverts (fun _ => rfl)
      (fun _ => rfl) [0, 255, 7]⟩

/-- C9: a delimiter containing a byte that is not a lowercase-letter byte
can never occur inside the random filler, and in the padded buffer
`filler ++ delimiter ++ payload` the first occurrence of the delimiter is
exactly the inserted one, at index `size = filler.length`. -/
theorem filler_never_contains_delimiter (u : Utf8Codec) (hu : u.AsciiLaws)
    (rand : Nat → Fin 26) (size : Nat) (sepB contentB : List Nat)
    (hsep : ∃ b ∈ sepB, b ∉ lettersBytes) :
    ¬ sepB <:+: getRandomBytesN u rand size ∧
    findSub sepB (getRandomBytesN u rand size ++ sepB ++ contentB) =
      some size := by
  constructor
  · intro hinf
    obtain ⟨b, hb, hnb⟩ := hsep
    exact hnb (getRandomBytesN_mem u hu rand size b (hinf.subset hb))
  · obtain ⟨j, hj, hQj, hjmin⟩ :=
      exists_first_not (fun b => b ∈ lettersBytes) sepB hsep
    rw [List.append_assoc]
    have h := findSub_append_first (r := contentB) (fun b => b ∈ lettersBytes)
      (getRandomBytesN_mem u hu rand size) j hj hQj hjmin
    rw [getRandomBytesN_length] at h
    exact h

theorem filler_never_contains_delimiter_witness :
    (∃ b ∈ ([124, 124] : List Nat), b ∉ lettersBytes) ∧
    (¬ ([124, 124] : List Nat) <:+: getRandomBytesN asciiRefCodec constRand 5 ∧
      findSub ([124, 124] : List Nat)
          (getRandomBytesN asciiRefCodec constRand 5 ++ [124, 124] ++ [104]) =
        some 5) :=
  ⟨by decide,
    filler_never_contains_delimiter asciiRefCodec asciiRefCodec_laws
      constRand 5 [124, 124] [104] (by decide)⟩

/-- C1: RSA round-trip. For every valid 2048-bit raw RSA key pair (one whose
private transform inverts the public transform on 256-byte blocks, the
property of a matching key pair) and every sequence of random draws the
generator may produce, decrypting the encryption of the payload `"hello"`
with delimiter `"||"` returns `"hello"`. -/
theorem rsa_roundtrip_hello (u : Utf8Codec) (hu : u.AsciiLaws)
    (ct : CiphertextCodec) (hct : ct.Roundtrip) (prim : RSAPrim)
    (hdec : ∀ bs : List Nat, bs.length = 256 → prim.dec (prim.enc bs) = bs)
    (hbytes : ∀ bs : List Nat, (∀ x ∈ bs, x < 256) →
      ∀ x ∈ prim.enc bs, x < 256)
    (rand : Nat → Fin 26) :
    (rsaEncryptM u ct prim rand (u.encode ("hello".toList)) ("||".toList)
        2048).map (fun c => rsaDecryptM u ct prim c ("||".toList)) =
      Except.ok (some ("hello".toList)) := by
  have hhello : u.encode ("hello".toList) = [104, 101, 108, 108, 111] :=
    (hu.1 _ (by decide)).trans (by decide)
  have hbar : u.encode ("||".toList) = [124, 124] :=
    (hu.1 _ (by decide)).trans (by decide)
  -- the encryption side: `restLength = 256 - 2 - 5 = 249`, so it succeeds
  have henc : rsaEncryptM u ct prim rand (u.encode ("hello".toList))
      ("||".toList) 2048 =
      .ok (ct.encode (prim.enc (getRandomBytesN u rand 249 ++ [124, 124] ++
        [104, 101, 108, 108, 111]))) := by
    simp only [rsaEncryptM, hhello, hbar]
    norm_num [getRandomBytesE]
    rfl
  rw [henc]
  simp only [Except.map, Except.ok.injEq]
  -- the decryption side
  have hflen : (getRandomBytesN u rand 249).length = 249 :=
    getRandomBytesN_length u rand 249
  have hfmem : ∀ b ∈ getRandomBytesN u rand 249, b ∈ lettersBytes :=
    getRandomBytesN_mem u hu rand 249
  have hpadA : ∀ x ∈ getRandomBytesN u rand 249 ++ [124, 124] ++
      [104, 101, 108, 108, 111], x < 128 := by
    intro x hx
    rcases List.mem_append.mp hx with hx1 | hx2
    · rcases List.mem_append.mp hx1 with hxa | hxb
      · exact lettersBytes_lt x (hfmem x hxa)
      · simp only [List.mem_cons, List.not_mem_nil, or_false] at hxb
        omega
    · simp only [List.mem_cons, List.not_mem_nil, or_false] at hx2
      omega
  have hpadB : ∀ x ∈ getRandomBytesN u rand 249 ++ [124, 124] ++
      [104, 101, 108, 108, 111], x < 256 :=
    fun x hx => Nat.lt_trans (hpadA x hx) (by norm_num)
  have hplen : (getRandomBytesN u rand 249 ++ [124, 124] ++
      [104, 101, 108, 108, 111]).length = 256 := by
    simp [hflen]
  rw [rsaDecryptM, hct _ (hbytes _ hpadB), hdec _ hplen, hu.2 _ hpadA]
  -- render the recovered block: filler letters, then "||", then "hello"
  have hfchars : (getRandomBytesN u rand 249).map Char.ofNat =
      getRandomString rand 249 := by
    rw [getRandomBytesN_eq u hu rand 249, List.map_map]
    have : Char.ofNat ∘ Char.toNat = id := by
      funext c
      exact Char.ofNat_toNat c
    rw [this, List.map_id]
  rw [List.map_append, List.map_append, hfchars]
  have hbarc : ([124, 124] : List Nat).map Char.ofNat = "||".toList := by
    decide
  have hhelloc : ([104, 101, 108, 108, 111] : List Nat).map Char.ofNat =
      "hello".toList := by decide
  rw [hbarc, hhelloc, List.append_assoc]
  -- the first occurrence of "||" is the inserted one
  have hocc : findSub ("||".toList)
      (getRandomString rand 249 ++ ("||".toList ++ "hello".toList)) =
      some (getRandomString rand 249).length :=
    findSub_append_first (fun c => c ∈ lettersList)
      (getRandomString_mem rand 249) 0 (by decide) (by decide)
      (fun i hi => absurd hi (Nat.not_lt_zero i))
  rw [rsaDecryptRecover, jsSplit_get1 (by decide) hocc]
  have hdrop : (getRandomString rand 249 ++
      ("||".toList ++ "hello".toList)).drop
        ((getRandomString rand 249).length + ("||".toList).length) =
      "hello".toList := by
    rw [List.drop_append]
    decide
  rw [hdrop]
  decide

theorem rsa_roundtrip_hello_witness :
    asciiRefCodec.AsciiLaws ∧ byteRefCodec.Roundtrip ∧
    (∀ bs : List Nat, bs.length = 256 → idRSAPrim.dec (idRSAPrim.enc bs) = bs) ∧
    (∀ bs : List Nat, (∀ x ∈ bs, x < 256) → ∀ x ∈ idRSAPrim.enc bs, x < 256) ∧
    (rsaEncryptM asciiRefCodec byteRefCodec idRSAPrim constRand
          (asciiRefCodec.encode ("hello".toList)) ("||".toList) 2048).map
        (fun c => rsaDecryptM asciiRefCodec byteRefCodec idRSAPrim c
          ("||".toList)) =
      Except.ok (some ("hello".toList)) :=
  ⟨asciiRefCodec_laws, byteRefCodec_roundtrip, fun _ _ => rfl,
    fun _ h => h,
    rsa_roundtrip_hello asciiRefCodec asciiRefCodec_laws byteRefCodec
      byteRefCodec_roundtrip idRSAPrim (fun _ _ => rfl) (fun _ h => h)
      constRand⟩
